import Mathlib

/-!
Shallow embedding of the read/verify path of the rdedup repository
(`src/lib/src/reading.rs`): the recursive index-resolution engine
(`ReadContext` / `ReadRequest` / `IndexTranslator`) together with the three
chunk-access policies (`DefaultChunkAccessor`, `RecordingChunkAccessor`,
`VerifyingChunkAccessor`).

Modelling conventions:
* bytes are `Nat`, byte strings are `List Nat`; a digest is its byte string;
* fallible calls (`io::Result`) are `Except`; collaborator errors are drawn
  from an abstract type `ε`;
* the mutable output writer (`&mut Write`) threaded through the traversal is
  represented by the static chain of `IndexTranslator`s wrapping the caller's
  sink, together with the stack of their partial-digest buffers, which is
  threaded through every call; bytes emitted to the caller's sink are
  returned as a value;
* the structured trace logging of the source (`"Reading recursively"`,
  `"Traversing index"`, `"Traversing data"`) and the accessor invocations are
  recorded as an event list, making the shape of the traversal observable.
-/

/-- Modelled from the spec: the fixed digest width `DIGEST_SIZE` is declared
outside `src/` (the spec only requires it to be a fixed positive constant);
the concrete value 32 is immaterial to every claim. -/
def DIGEST_SIZE : Nat := 32

/-- The partial-digest buffer of an `IndexTranslator` (`digest_buf`): it holds
strictly fewer than `DIGEST_SIZE` bytes between writes (on reaching exactly
`DIGEST_SIZE` bytes it is consumed and cleared within the same call). -/
abbrev Buf := { l : List Nat // l.length < DIGEST_SIZE }

/-- Empty translator buffer, the state of a freshly created translator. -/
def emptyBuf : Buf := ⟨[], by decide⟩

/-- A stack of `n` empty translator buffers. -/
def emptyBufs (n : Nat) : List Buf := List.replicate n emptyBuf

/-- Modelled from the spec: `DataType` classifies chunk payload semantics
("index" vs "application data"); it is declared outside `src/`. -/
inductive DataType where
  | Data : DataType
  | Index : DataType
deriving DecidableEq

/-- Modelled from the spec: the capability queries of `DataType`
(`should_encrypt`, `should_compress`) are declared outside `src/`; the spec
does not fix their truth table, so they are kept abstract. -/
structure TypePolicy where
  should_encrypt : DataType → Bool
  should_compress : DataType → Bool

/-- Errors produced by `DefaultChunkAccessor::read_chunk_into`: an error of a
collaborator (backend fetch, decrypter, decompressor) wrapped as `inner`, the
corruption error built by the accessor itself (carrying the requested digest
and the recomputed one, as the source formats both into the message), and the
`expect("Decrypter expected")` panic modelled as `missingDecrypter`. -/
inductive ChunkError (ε : Type) where
  | inner : ε → ChunkError ε
  | corrupted : List Nat → List Nat → ChunkError ε
  | missingDecrypter : ChunkError ε
deriving DecidableEq

/-- `DefaultChunkAccessor`: a repository reference, an optional decrypter and
a compression codec.  The external collaborators (path resolution, block I/O,
decrypter, codec, hasher — spec §6) are its functional fields. -/
structure DefaultChunkAccessor (ε : Type) where
  chunk_rel_path_by_digest : List Nat → List Nat
  aioRead : List Nat → Except ε (List Nat)
  decrypter : Option (List Nat → List Nat → Except ε (List Nat))
  decompress : List Nat → Except ε (List Nat)
  calculate_digest : List Nat → List Nat

/-- The decryption step of `DefaultChunkAccessor::read_chunk_into`: if the
data type requires encryption, decrypt with the digest as associated data
(`expect`ing a decrypter), else pass the data through. -/
def decryptStep (acc : DefaultChunkAccessor ε) (tp : TypePolicy) (data_type : DataType)
    (data : List Nat) (digest : List Nat) : Except (ChunkError ε) (List Nat) :=
  if tp.should_encrypt data_type then
    match acc.decrypter with
    | none => .error .missingDecrypter
    | some dec =>
      match dec data digest with
      | .error e => .error (.inner e)
      | .ok d => .ok d
  else .ok data

/-- The decompression step of `DefaultChunkAccessor::read_chunk_into`. -/
def decompressStep (acc : DefaultChunkAccessor ε) (tp : TypePolicy) (data_type : DataType)
    (data : List Nat) : Except (ChunkError ε) (List Nat) :=
  if tp.should_compress data_type then
    match acc.decompress data with
    | .error e => .error (.inner e)
    | .ok d => .ok d
  else .ok data

/-- `DefaultChunkAccessor::read_chunk_into`: fetch the raw chunk bytes by
digest, optionally decrypt, optionally decompress, recompute the digest of
the plaintext and compare it with the requested one; on mismatch fail with
the corruption error carrying both digests, on match stream the plaintext
into the writer.  The writer is modelled as the byte accumulator it wraps. -/
def DefaultChunkAccessor.read_chunk_into (acc : DefaultChunkAccessor ε) (tp : TypePolicy)
    (digest : List Nat) (data_type : DataType) (writer : List Nat) :
    Except (ChunkError ε) Unit × List Nat :=
  match acc.aioRead (acc.chunk_rel_path_by_digest digest) with
  | .error e => (.error (.inner e), writer)
  | .ok data0 =>
    match decryptStep acc tp data_type data0 digest with
    | .error e => (.error e, writer)
    | .ok data1 =>
      match decompressStep acc tp data_type data1 with
      | .error e => (.error e, writer)
      | .ok data2 =>
        let vec_result := acc.calculate_digest data2
        if vec_result ≠ digest then
          (.error (.corrupted digest vec_result), writer)
        else
          (.ok (), writer ++ data2)

/-- `RecordingChunkAccessor::touch`: insert the digest's bytes into the
caller-owned set of accessed digests and report success. -/
def RecordingChunkAccessor.touch (accessed : Finset (List Nat)) (digest : List Nat) :
    Except (ChunkError ε) Unit × Finset (List Nat) :=
  (.ok (), insert digest accessed)

/-- `RecordingChunkAccessor::read_chunk_into`: touch the digest, then delegate
to the inner default accessor. -/
def RecordingChunkAccessor.read_chunk_into (acc : DefaultChunkAccessor ε) (tp : TypePolicy)
    (accessed : Finset (List Nat)) (digest : List Nat) (data_type : DataType)
    (writer : List Nat) :
    Except (ChunkError ε) Unit × Finset (List Nat) × List Nat :=
  let t := RecordingChunkAccessor.touch (ε := ε) accessed digest
  match t.1 with
  | .error e => (.error e, t.2, writer)
  | .ok _ =>
    let r := acc.read_chunk_into tp digest data_type writer
    (r.1, t.2, r.2)

/-- Modelled from the spec: `VerifyResults { scanned, errors }` is declared
outside `src/`; `scanned` counts distinct chunks, `errors` is the ordered
list of per-digest failures. -/
structure VerifyResults (ε : Type) where
  scanned : Nat
  errors : List (List Nat × ChunkError ε)
deriving DecidableEq

/-- Mutable state of a `VerifyingChunkAccessor`: the set of digests already
accessed in this run, and the accumulated `(digest, error)` list. -/
structure VCAState (ε : Type) where
  accessed : Finset (List Nat)
  errors : List (List Nat × ChunkError ε)

/-- Result of one `VerifyingChunkAccessor::read_chunk_into` call: the value
returned to the caller, the updated accessor state, the updated writer, and
the list of digests passed to the inner (raw) accessor during the call. -/
structure VRes (ε : Type) where
  res : Except (ChunkError ε) Unit
  st : VCAState ε
  writer : List Nat
  inner : List (List Nat)

/-- `VerifyingChunkAccessor::read_chunk_into`: a digest already in the
accessed set returns immediate success; otherwise the digest is inserted
into the set first, the inner default accessor is invoked, and a failure is
appended to the error list while the call itself still reports success. -/
def VerifyingChunkAccessor.read_chunk_into (acc : DefaultChunkAccessor ε) (tp : TypePolicy)
    (st : VCAState ε) (digest : List Nat) (data_type : DataType) (writer : List Nat) :
    VRes ε :=
  if digest ∈ st.accessed then
    ⟨.ok (), st, writer, []⟩
  else
    let st1 : VCAState ε := ⟨insert digest st.accessed, st.errors⟩
    let r := acc.read_chunk_into tp digest data_type writer
    match r.1 with
    | .error e => ⟨.ok (), ⟨st1.accessed, st1.errors ++ [(digest, e)]⟩, r.2, [digest]⟩
    | .ok _ => ⟨.ok (), st1, r.2, [digest]⟩

/-- `VerifyingChunkAccessor::get_results`: consume the accessor state into a
`VerifyResults` report. -/
def VerifyingChunkAccessor.get_results (st : VCAState ε) : VerifyResults ε :=
  ⟨st.accessed.card, st.errors⟩

/-- A sequence of `read_chunk_into` calls on one `VerifyingChunkAccessor`
(one verification run), threading state and writer and concatenating the
inner-invocation lists. -/
def runVCA (acc : DefaultChunkAccessor ε) (tp : TypePolicy) (st : VCAState ε)
    (writer : List Nat) : List (List Nat × DataType) → VCAState ε × List Nat × List (List Nat)
  | [] => (st, writer, [])
  | (digest, data_type) :: reqs =>
    let r := VerifyingChunkAccessor.read_chunk_into acc tp st digest data_type writer
    let rest := runVCA acc tp r.st r.writer reqs
    (rest.1, rest.2.1, r.inner ++ rest.2.2)

/-- Observable events of one traversal: the source's structured trace logs
(`"Reading recursively"` with the request's digest and level, `"Traversing
index"`, `"Traversing data"`) and the accessor invocations
(`read_chunk_into` as `fetch`, `touch`). -/
inductive Ev where
  | readingRecursively : List Nat → Nat → Ev
  | traversingIndex : List Nat → Ev
  | traversingData : List Nat → Ev
  | fetch : List Nat → DataType → Ev
  | touch : List Nat → Ev
deriving DecidableEq

/-- The `ChunkAccessor` borrowed by a `ReadContext`, abstracted over the
policy: `read_chunk_into` either fails or determines the plaintext bytes it
streams into the writer (for the default and recording accessors the bytes
are written only after verification, all at once up to chunking), and
`touch` records a digest.  Both depend only on their arguments, matching the
stateless accessors a plain read or reachability scan uses. -/
structure Env (ε : Type) where
  fetch : List Nat → DataType → Except ε (List Nat)
  touch : List Nat → Except ε Unit

/-- Result of a traversal step: outcome, the updated buffer stack of the
writer's translator chain, the bytes emitted to the caller's sink, and the
trace events.  On error the effects produced so far are retained. -/
structure RRes (ε : Type) where
  res : Except ε Unit
  bufs : List Buf
  out : List Nat
  events : List Ev

/-- Result of an `IndexTranslator::write` call: as `RRes`, plus the
translator's own partial-digest buffer. -/
structure TRes (ε : Type) where
  res : Except ε Unit
  buf : Buf
  bufs : List Buf
  out : List Nat
  events : List Ev

mutual

/-- `ReadContext::read_recursively`: log, then dispatch on the request's
`index_level` — zero to `on_data`, positive to `on_index`.  The writer of
the request is `none` (discard) or `some chain`, the chain of data types of
the `IndexTranslator`s wrapping the caller's sink (`[]` = the bare sink);
`hasBase` records whether the sink at the bottom of every chain of this
traversal is present, and `bufs` is the stack of translator buffers. -/
def readRec (env : Env ε) (hasBase : Bool) (data_type : DataType) (digest : List Nat)
    (index_level : Nat) (writer : Option (List DataType)) (bufs : List Buf) : RRes ε :=
  let r :=
    if h : index_level = 0 then
      onData env hasBase data_type digest writer bufs
    else
      onIndex env hasBase data_type digest index_level h writer bufs
  ⟨r.res, r.bufs, r.out, Ev.readingRecursively digest index_level :: r.events⟩
  termination_by (6 * index_level + 4 * (writer.getD []).length + 3, 0)
  decreasing_by
  · apply Prod.Lex.left; omega
  · apply Prod.Lex.left; omega

/-- `ReadContext::on_data`: log; if the request has a writer, ask the
accessor to read the chunk into it (fetch, then stream the plaintext into
the writer chain), else merely touch the digest. -/
def onData (env : Env ε) (hasBase : Bool) (data_type : DataType) (digest : List Nat)
    (writer : Option (List DataType)) (bufs : List Buf) : RRes ε :=
  match writer with
  | some chain =>
    match env.fetch digest data_type with
    | .error e => ⟨.error e, bufs, [], [Ev.traversingData digest, Ev.fetch digest data_type]⟩
    | .ok data =>
      let r := writeChain env hasBase chain bufs data
      ⟨r.res, r.bufs, r.out, Ev.traversingData digest :: Ev.fetch digest data_type :: r.events⟩
  | none =>
    match env.touch digest with
    | .error e => ⟨.error e, bufs, [], [Ev.traversingData digest, Ev.touch digest]⟩
    | .ok _ => ⟨.ok (), bufs, [], [Ev.traversingData digest, Ev.touch digest]⟩
  termination_by (4 * (writer.getD []).length + 2, 0)
  decreasing_by
  · apply Prod.Lex.left; simp only [Option.getD]; omega

/-- `ReadContext::on_index`: log; allocate a fresh `IndexTranslator` taking
over the request's writer and tagged with the request's data type, and issue
the nested `read_recursively` with the same digest, `index_level - 1`, data
type `Index`, and the translator as writer.  The translator is dropped when
the nested call returns (its buffer is popped). -/
def onIndex (env : Env ε) (hasBase : Bool) (data_type : DataType) (digest : List Nat)
    (index_level : Nat) (_h : index_level ≠ 0) (writer : Option (List DataType))
    (bufs : List Buf) : RRes ε :=
  let r := readRec env hasBase DataType.Index digest (index_level - 1)
      (some (data_type :: writer.getD [])) (emptyBuf :: bufs)
  ⟨r.res, r.bufs.tail, r.out, Ev.traversingIndex digest :: r.events⟩
  termination_by (6 * index_level + 4 * (writer.getD []).length + 2, 0)
  decreasing_by
  · apply Prod.Lex.left; simp only [Option.getD, List.length_cons]; omega

/-- Writing bytes to a writer: an empty chain is the caller's sink (the
bytes are emitted), a non-empty chain is an `IndexTranslator` whose buffer
is the top of the buffer stack, wrapping the rest of the chain. -/
def writeChain (env : Env ε) (hasBase : Bool) (chain : List DataType) (bufs : List Buf)
    (bytes : List Nat) : RRes ε :=
  match chain with
  | [] => ⟨.ok (), bufs, bytes, []⟩
  | data_type :: rest =>
    let r := transLoop env hasBase data_type (bufs.headD emptyBuf) rest bufs.tail bytes
    ⟨r.res, r.buf :: r.bufs, r.out, r.events⟩
  termination_by (4 * chain.length + 1, bytes.length)
  decreasing_by
  · apply Prod.Lex.left; simp only [List.length_cons]; omega

/-- The loop of `IndexTranslator::write`: while the buffer plus the
remaining input reaches `DIGEST_SIZE`, fill the buffer to exactly
`DIGEST_SIZE`, consume those bytes, and react to the completed digest — a
`read_recursively` at `index_level` 0 into the wrapped writer if present,
else a `touch`; clear the buffer, propagate a failure (`res?`), and repeat.
Otherwise append the leftover to the buffer and return. -/
def transLoop (env : Env ε) (hasBase : Bool) (data_type : DataType) (digest_buf : Buf)
    (rest : List DataType) (bufs : List Buf) (bytes : List Nat) : TRes ε :=
  if hlt : digest_buf.val.length + bytes.length < DIGEST_SIZE then
    ⟨.ok (), ⟨digest_buf.val ++ bytes, by simpa using hlt⟩, bufs, [], []⟩
  else
    let needs := DIGEST_SIZE - digest_buf.val.length
    let digest := digest_buf.val ++ bytes.take needs
    let step : RRes ε :=
      if rest.isEmpty && !hasBase then
        match env.touch digest with
        | .error e => ⟨.error e, bufs, [], [Ev.touch digest]⟩
        | .ok _ => ⟨.ok (), bufs, [], [Ev.touch digest]⟩
      else
        readRec env hasBase data_type digest 0 (some rest) bufs
    match step.res with
    | .error e => ⟨.error e, emptyBuf, step.bufs, step.out, step.events⟩
    | .ok _ =>
      let r := transLoop env hasBase data_type emptyBuf rest step.bufs (bytes.drop needs)
      ⟨r.res, r.buf, r.bufs, step.out ++ r.out, step.events ++ r.events⟩
  termination_by (4 * rest.length + 4, bytes.length)
  decreasing_by
  · apply Prod.Lex.left; simp only [Option.getD]; omega
  · apply Prod.Lex.right
    have hb := digest_buf.2
    simp only [List.length_drop]
    unfold DIGEST_SIZE at *
    omega

end

/-- Sequencing of translator-write results: on success continue with the
resulting buffer and buffer stack, accumulating output and events; on
failure stop (the failed result is returned as-is, as `write_all`'s `?`
operator propagates it). -/
def TRes.andThen (r : TRes ε) (k : Buf → List Buf → TRes ε) : TRes ε :=
  match r.res with
  | .error _ => r
  | .ok _ =>
    let r2 := k r.buf r.bufs
    ⟨r2.res, r2.buf, r2.bufs, r.out ++ r2.out, r.events ++ r2.events⟩

/-- Feeding a list of byte pieces to one `IndexTranslator` in order, i.e. a
sequence of `write` calls on the same translator, stopping at the first
failed write. -/
def writeList (env : Env ε) (hasBase : Bool) (data_type : DataType) (digest_buf : Buf)
    (rest : List DataType) (bufs : List Buf) : List (List Nat) → TRes ε
  | [] => ⟨.ok (), digest_buf, bufs, [], []⟩
  | p :: ps =>
    (transLoop env hasBase data_type digest_buf rest bufs p).andThen
      fun buf2 bufs2 => writeList env hasBase data_type buf2 rest bufs2 ps

/-- The pure digest demultiplexer underlying `IndexTranslator::write`: the
same loop as `transLoop`, recording the sequence of completed digests
instead of reacting to them, and returning the final buffer. -/
def splitDigests (digest_buf : Buf) (bytes : List Nat) : List (List Nat) × Buf :=
  if hlt : digest_buf.val.length + bytes.length < DIGEST_SIZE then
    ([], ⟨digest_buf.val ++ bytes, by simpa using hlt⟩)
  else
    let needs := DIGEST_SIZE - digest_buf.val.length
    let r := splitDigests emptyBuf (bytes.drop needs)
    ((digest_buf.val ++ bytes.take needs) :: r.1, r.2)
  termination_by bytes.length
  decreasing_by
  · have hb := digest_buf.2
    simp only [List.length_drop]
    unfold DIGEST_SIZE at *
    omega

/-- The consecutive `DIGEST_SIZE`-byte groups of a byte string. -/
def chunksOf (bytes : List Nat) : List (List Nat) :=
  if bytes.isEmpty then []
  else bytes.take DIGEST_SIZE :: chunksOf (bytes.drop DIGEST_SIZE)
  termination_by bytes.length
  decreasing_by
  · simp only [List.length_drop]
    cases bytes with
    | nil => simp [List.isEmpty] at *
    | cons a l => unfold DIGEST_SIZE; simp; omega

/-- The reaction of `IndexTranslator::write` to one completed digest: a
`read_recursively` at `index_level` 0 into the wrapped writer if that writer
is present, else a `touch` of the digest (the same expression as the body of
the loop in `transLoop`, given a top-level name for stating lemmas). -/
def translatorStep (env : Env ε) (hasBase : Bool) (data_type : DataType)
    (rest : List DataType) (bufs : List Buf) (digest : List Nat) : RRes ε :=
  if rest.isEmpty && !hasBase then
    match env.touch digest with
    | .error e => ⟨.error e, bufs, [], [Ev.touch digest]⟩
    | .ok _ => ⟨.ok (), bufs, [], [Ev.touch digest]⟩
  else
    readRec env hasBase data_type digest 0 (some rest) bufs

/-- Reacting to a list of completed digests in order, as the translator
loop does: for each digest, a `read_recursively` at level 0 into the
wrapped writer if present, else a `touch`; stop at the first failure. -/
def resolveDigests (env : Env ε) (hasBase : Bool) (data_type : DataType)
    (rest : List DataType) (bufs : List Buf) : List (List Nat) → RRes ε
  | [] => ⟨.ok (), bufs, [], []⟩
  | digest :: ds =>
    let step := translatorStep env hasBase data_type rest bufs digest
    match step.res with
    | .error e => ⟨.error e, step.bufs, step.out, step.events⟩
    | .ok _ =>
      let r := resolveDigests env hasBase data_type rest step.bufs ds
      ⟨r.res, r.bufs, step.out ++ r.out, step.events ++ r.events⟩

/-- A digest-indexed tree: a leaf chunk with its digest and plaintext
content, or an index chunk with its digest and children. -/
inductive LTree where
  | leaf : List Nat → List Nat → LTree
  | node : List Nat → List LTree → LTree

/-- The digest addressing a tree's root chunk. -/
def LTree.digestOf : LTree → List Nat
  | .leaf d _ => d
  | .node d _ => d

/-- The concatenated digests of a forest, i.e. the plaintext content of the
index chunk whose children the forest is. -/
def digestStream (ts : List LTree) : List Nat :=
  (ts.map LTree.digestOf).flatten

mutual

/-- The concatenation of a tree's leaf contents in leaf order. -/
def flatF : LTree → List Nat
  | .leaf _ c => c
  | .node _ cs => flatL cs

/-- The concatenation of a forest's leaf contents. -/
def flatL : List LTree → List Nat
  | [] => []
  | t :: ts => flatF t ++ flatL ts

end

mutual

/-- Well-formedness of a tree at a given index level: a level-0 tree is a
leaf, a level-`(l+1)` tree is a node whose children are well-formed at
level `l`; every digest is exactly `DIGEST_SIZE` bytes. -/
def wfF : Nat → LTree → Prop
  | 0, .leaf d _ => d.length = DIGEST_SIZE
  | l + 1, .node d cs => d.length = DIGEST_SIZE ∧ wfL l cs
  | _, _ => False

/-- Well-formedness of every tree of a forest at a given level. -/
def wfL : Nat → List LTree → Prop
  | _, [] => True
  | l, t :: ts => wfF l t ∧ wfL l ts

end

mutual

/-- Consistency of an accessor environment with a tree: each leaf digest
fetched with the traversal's root data type yields the leaf content, each
node digest fetched as `Index` yields the concatenated child digests. -/
def consistentF (env : Env ε) (data_type : DataType) : LTree → Prop
  | .leaf d c => env.fetch d data_type = .ok c
  | .node d cs => env.fetch d DataType.Index = .ok (digestStream cs) ∧ consistentL env data_type cs

/-- Consistency of an environment with every tree of a forest. -/
def consistentL (env : Env ε) (data_type : DataType) : List LTree → Prop
  | [] => True
  | t :: ts => consistentF env data_type t ∧ consistentL env data_type ts

end

mutual

/-- The trace of resolving one decoded digest at level 0: the recursive-read
log, the leaf-handling log, and the fetch — for a node the children's
digests are then decoded by the next-outer translator in order. -/
def traceF (data_type : DataType) : LTree → List Ev
  | .leaf d _ => [Ev.readingRecursively d 0, Ev.traversingData d, Ev.fetch d data_type]
  | .node d cs => Ev.readingRecursively d 0 :: Ev.traversingData d ::
      Ev.fetch d DataType.Index :: traceL data_type cs

/-- The trace of resolving each tree of a forest in order. -/
def traceL (data_type : DataType) : List LTree → List Ev
  | [] => []
  | t :: ts => traceF data_type t ++ traceL data_type ts

end

/-- The trace of the index-unwinding descent from a root at a given level
down to level 0 (exclusive): one recursive-read log and one index-handling
log per level. -/
def unwindTrace (digest : List Nat) : Nat → List Ev
  | 0 => []
  | l + 1 => Ev.readingRecursively digest (l + 1) :: Ev.traversingIndex digest ::
      unwindTrace digest l

/-- Whether an event is an accessor invocation (a chunk fetch through
`read_chunk_into`, or a `touch`). -/
def accessorEv : Ev → Bool
  | .fetch _ _ => true
  | .touch _ => true
  | _ => false

/-- Whether an event marks index handling (`on_index`). -/
def indexEv : Ev → Bool
  | .traversingIndex _ => true
  | _ => false

/-- The chain of translator data types built by unwinding an index request
whose original data type is `data_type` through `l + 1` levels: the
innermost translators are tagged `Index`, the outermost one carries the
original data type. -/
def chainFor (data_type : DataType) : Nat → List DataType
  | 0 => [data_type]
  | l + 1 => DataType.Index :: chainFor data_type l

/-- The data type of the innermost translator of `chainFor data_type l`. -/
def headDT (data_type : DataType) : Nat → DataType
  | 0 => data_type
  | _ + 1 => DataType.Index

/-- The chain wrapped by the innermost translator of `chainFor data_type l`. -/
def restDT (data_type : DataType) : Nat → List DataType
  | 0 => []
  | l + 1 => chainFor data_type l

/-- Concrete digest of the root index chunk of the example tree. -/
def dR : List Nat := List.replicate DIGEST_SIZE 1

/-- Concrete digest of the intermediate index chunk of the example tree. -/
def dE : List Nat := List.replicate DIGEST_SIZE 2

/-- Concrete digest of the leaf chunk of the example tree. -/
def dF : List Nat := List.replicate DIGEST_SIZE 3

/-- A concrete well-formed depth-2 tree: root index chunk `dR` referencing
the intermediate index chunk `dE`, which references the leaf `dF` whose
content is the single byte 9. -/
def tree2 : LTree := .node dR [.node dE [.leaf dF [9]]]

/-- A concrete accessor environment consistent with `tree2`. -/
def env2 : Env Unit :=
  ⟨fun dg _ =>
      if dg = dR then .ok dE
      else if dg = dE then .ok dF
      else if dg = dF then .ok [9]
      else .error (),
   fun _ => .ok ()⟩

/-- A type policy requiring neither encryption nor compression. -/
def tpNone : TypePolicy := ⟨fun _ => false, fun _ => false⟩

/-- A concrete default accessor whose backend fetch always fails. -/
def accErr : DefaultChunkAccessor Unit :=
  ⟨id, fun _ => .error (), none, fun d => .ok d, id⟩

/-- A concrete default accessor that fetches the bytes `[5]` for every path
and whose hasher returns the empty digest, so every read is a mismatch. -/
def accBad : DefaultChunkAccessor Unit :=
  ⟨id, fun _ => .ok [5], none, fun d => .ok d, fun _ => []⟩

/-- The empty verifying-accessor state a verification run starts from. -/
def st0 : VCAState Unit := ⟨∅, []⟩

/-- C8: repeated `touch` calls on the same digest through
`RecordingChunkAccessor` leave the visited set's membership identical to its
state after the first call: any number of further calls is a no-op on the
set, the digest's bytes are in the set, and every call reports success. -/
theorem claim8_touch_idempotent (st : Finset (List Nat)) (digest : List Nat) (n : Nat) :
    (fun s => (RecordingChunkAccessor.touch (ε := ε) s digest).2)^[n]
        ((RecordingChunkAccessor.touch (ε := ε) st digest).2)
      = (RecordingChunkAccessor.touch (ε := ε) st digest).2
    ∧ digest ∈ (RecordingChunkAccessor.touch (ε := ε) st digest).2
    ∧ (RecordingChunkAccessor.touch (ε := ε) st digest).1 = .ok () := by
  refine ⟨?_, ?_, rfl⟩
  · apply Function.iterate_fixed
    simp [RecordingChunkAccessor.touch]
  · simp [RecordingChunkAccessor.touch]

/-- C9: when `DefaultChunkAccessor::read_chunk_into` fails — backend fetch,
decryption, decompression, or digest mismatch — the writer is exactly as it
was: the digest check happens strictly before any byte is emitted. -/
theorem claim9_no_partial_write (acc : DefaultChunkAccessor ε) (tp : TypePolicy)
    (digest : List Nat) (data_type : DataType) (writer : List Nat) (e : ChunkError ε)
    (h : (acc.read_chunk_into tp digest data_type writer).1 = .error e) :
    (acc.read_chunk_into tp digest data_type writer).2 = writer := by
  unfold DefaultChunkAccessor.read_chunk_into at h ⊢
  cases hc : acc.aioRead (acc.chunk_rel_path_by_digest digest) with
  | error e0 => simp [hc]
  | ok data0 =>
    cases h1 : decryptStep acc tp data_type data0 digest with
    | error e1 => simp [hc, h1]
    | ok data1 =>
      cases h2 : decompressStep acc tp data_type data1 with
      | error e2 => simp [hc, h1, h2]
      | ok data2 =>
        by_cases hd : acc.calculate_digest data2 ≠ digest
        · simp [hc, h1, h2, hd]
        · simp [hc, h1, h2, hd] at h

/-- Witness for C9 at a concrete input: the accessor whose backend always
fails returns the fetch error and leaves the writer `[7]` untouched. -/
theorem claim9_witness :
    (DefaultChunkAccessor.read_chunk_into accErr tpNone dR DataType.Data [7]).1
        = .error (.inner ())
    ∧ (DefaultChunkAccessor.read_chunk_into accErr tpNone dR DataType.Data [7]).2 = [7] :=
  ⟨rfl, claim9_no_partial_write accErr tpNone dR DataType.Data [7] (.inner ()) rfl⟩

/-- C4: under `DefaultChunkAccessor::read_chunk_into`, once the fetched
bytes have passed the optional decryption and decompression steps yielding
plaintext `data2`, the call succeeds exactly when the digest recomputed over
`data2` equals the requested digest; on a mismatch it fails with the
corruption error carrying both the requested and the recomputed digest and
writes nothing, and on success it appends exactly the verified plaintext. -/
theorem claim4_digest_check (acc : DefaultChunkAccessor ε) (tp : TypePolicy)
    (digest : List Nat) (data_type : DataType) (writer : List Nat)
    (data0 data1 data2 : List Nat)
    (h1 : acc.aioRead (acc.chunk_rel_path_by_digest digest) = .ok data0)
    (h2 : decryptStep acc tp data_type data0 digest = .ok data1)
    (h3 : decompressStep acc tp data_type data1 = .ok data2) :
    ((acc.read_chunk_into tp digest data_type writer).1 = .ok ()
        ↔ acc.calculate_digest data2 = digest)
    ∧ (acc.calculate_digest data2 ≠ digest →
        acc.read_chunk_into tp digest data_type writer
          = (.error (.corrupted digest (acc.calculate_digest data2)), writer))
    ∧ (acc.calculate_digest data2 = digest →
        acc.read_chunk_into tp digest data_type writer = (.ok (), writer ++ data2)) := by
  unfold DefaultChunkAccessor.read_chunk_into
  simp only [h1, h2, h3]
  by_cases hd : acc.calculate_digest data2 = digest
  · simp [hd]
  · simp [hd]

/-- Witness for C4 at a concrete input: for the accessor whose hasher
returns `[]`, reading digest `dR` is a mismatch and yields the corruption
error carrying the requested digest `dR` and the recomputed digest `[]`,
leaving the writer untouched. -/
theorem claim4_witness :
    accBad.aioRead (accBad.chunk_rel_path_by_digest dR) = .ok [5]
    ∧ decryptStep accBad tpNone DataType.Data [5] dR = .ok [5]
    ∧ decompressStep accBad tpNone DataType.Data [5] = .ok [5]
    ∧ accBad.calculate_digest [5] ≠ dR
    ∧ DefaultChunkAccessor.read_chunk_into accBad tpNone dR DataType.Data []
        = (.error (.corrupted dR (accBad.calculate_digest [5])), []) :=
  ⟨rfl, rfl, rfl, by decide,
    (claim4_digest_check accBad tpNone dR DataType.Data [] [5] [5] [5]
      rfl rfl rfl).2.1 (by decide)⟩

/-- The verifying accessor always reports success to its caller. -/
theorem VCA_res_ok (acc : DefaultChunkAccessor ε) (tp : TypePolicy) (st : VCAState ε)
    (digest : List Nat) (data_type : DataType) (writer : List Nat) :
    (VerifyingChunkAccessor.read_chunk_into acc tp st digest data_type writer).res
      = .ok () := by
  unfold VerifyingChunkAccessor.read_chunk_into
  by_cases hm : digest ∈ st.accessed
  · simp [hm]
  · cases hr : (acc.read_chunk_into tp digest data_type writer).1 <;> simp [hm, hr]

/-- The verifying accessor's accessed set after a call is exactly the old
set with the digest inserted, whatever the inner read did (for an already
accessed digest the insertion is a no-op). -/
theorem VCA_accessed_insert (acc : DefaultChunkAccessor ε) (tp : TypePolicy) (st : VCAState ε)
    (digest : List Nat) (data_type : DataType) (writer : List Nat) :
    (VerifyingChunkAccessor.read_chunk_into acc tp st digest data_type writer).st.accessed
      = insert digest st.accessed := by
  unfold VerifyingChunkAccessor.read_chunk_into
  by_cases hm : digest ∈ st.accessed
  · simp [hm, Finset.insert_eq_self.mpr hm]
  · cases hr : (acc.read_chunk_into tp digest data_type writer).1 <;> simp [hm, hr]

/-- The verifying accessor's error list after a call is either unchanged or,
when the digest was fresh and the inner read failed, the old list with the
single pair `(digest, error)` appended. -/
theorem VCA_errors_cases (acc : DefaultChunkAccessor ε) (tp : TypePolicy) (st : VCAState ε)
    (digest : List Nat) (data_type : DataType) (writer : List Nat) :
    (VerifyingChunkAccessor.read_chunk_into acc tp st digest data_type writer).st.errors
        = st.errors
    ∨ (digest ∉ st.accessed ∧ ∃ e,
        (acc.read_chunk_into tp digest data_type writer).1 = .error e ∧
        (VerifyingChunkAccessor.read_chunk_into acc tp st digest data_type writer).st.errors
          = st.errors ++ [(digest, e)]) := by
  unfold VerifyingChunkAccessor.read_chunk_into
  by_cases hm : digest ∈ st.accessed
  · left; simp [hm]
  · cases hr : (acc.read_chunk_into tp digest data_type writer).1 with
    | error e => right; exact ⟨hm, e, by simp [hr], by simp [hm, hr]⟩
    | ok _ => left; simp [hm, hr]

/-- The inner-invocation list of a verifying call: the digest alone when it
was fresh, nothing when it was already accessed. -/
theorem VCA_inner_cases (acc : DefaultChunkAccessor ε) (tp : TypePolicy) (st : VCAState ε)
    (digest : List Nat) (data_type : DataType) (writer : List Nat) :
    (digest ∈ st.accessed ∧
      (VerifyingChunkAccessor.read_chunk_into acc tp st digest data_type writer).inner = [])
    ∨ (digest ∉ st.accessed ∧
      (VerifyingChunkAccessor.read_chunk_into acc tp st digest data_type writer).inner
        = [digest]) := by
  unfold VerifyingChunkAccessor.read_chunk_into
  by_cases hm : digest ∈ st.accessed
  · left; exact ⟨hm, by simp [hm]⟩
  · right
    refine ⟨hm, ?_⟩
    cases hr : (acc.read_chunk_into tp digest data_type writer).1 <;> simp [hm, hr]

/-- The accessed set accumulated by a verification run is the starting set
united with the digests of all requests. -/
theorem runVCA_accessed (acc : DefaultChunkAccessor ε) (tp : TypePolicy) :
    ∀ (reqs : List (List Nat × DataType)) (st : VCAState ε) (writer : List Nat),
    (runVCA acc tp st writer reqs).1.accessed
      = st.accessed ∪ (reqs.map Prod.fst).toFinset := by
  intro reqs
  induction reqs with
  | nil => intro st writer; simp [runVCA]
  | cons r reqs ih =>
    intro st writer
    obtain ⟨d, dt⟩ := r
    show (runVCA acc tp _ _ reqs).1.accessed = _
    rw [ih, VCA_accessed_insert]
    simp only [List.map_cons, List.toFinset_cons]
    rw [Finset.insert_union, Finset.union_insert]

/-- During a verification run, the digests handed to the inner accessor are
pairwise distinct, and each of them was fresh at the start of the run. -/
theorem runVCA_inner_fresh (acc : DefaultChunkAccessor ε) (tp : TypePolicy) :
    ∀ (reqs : List (List Nat × DataType)) (st : VCAState ε) (writer : List Nat),
    (runVCA acc tp st writer reqs).2.2.Nodup
    ∧ ∀ d ∈ (runVCA acc tp st writer reqs).2.2, d ∉ st.accessed := by
  intro reqs
  induction reqs with
  | nil => intro st writer; simp [runVCA]
  | cons r reqs ih =>
    intro st writer
    obtain ⟨d, dt⟩ := r
    have h2 := ih (VerifyingChunkAccessor.read_chunk_into acc tp st d dt writer).st
      (VerifyingChunkAccessor.read_chunk_into acc tp st d dt writer).writer
    have hacc := VCA_accessed_insert acc tp st d dt writer
    simp only [runVCA]
    rcases VCA_inner_cases acc tp st d dt writer with ⟨hm, hi⟩ | ⟨hm, hi⟩
    · rw [hi]
      simp only [List.nil_append]
      refine ⟨h2.1, ?_⟩
      intro x hx hmem
      exact h2.2 x hx (by rw [hacc]; exact Finset.mem_insert_of_mem hmem)
    · rw [hi]
      simp only [List.singleton_append]
      constructor
      · refine List.nodup_cons.mpr ⟨?_, h2.1⟩
        intro hd
        exact h2.2 d hd (by rw [hacc]; exact Finset.mem_insert_self d _)
      · intro x hx
        rcases List.mem_cons.mp hx with hx | hx
        · subst hx; exact hm
        · intro hmem
          exact h2.2 x hx (by rw [hacc]; exact Finset.mem_insert_of_mem hmem)

/-- The error list accumulated by a verification run only grows: the final
list extends the starting one. -/
theorem runVCA_errors_mono (acc : DefaultChunkAccessor ε) (tp : TypePolicy) :
    ∀ (reqs : List (List Nat × DataType)) (st : VCAState ε) (writer : List Nat),
    ∃ tail, (runVCA acc tp st writer reqs).1.errors = st.errors ++ tail := by
  intro reqs
  induction reqs with
  | nil => intro st writer; exact ⟨[], by simp [runVCA]⟩
  | cons r reqs ih =>
    intro st writer
    obtain ⟨d, dt⟩ := r
    obtain ⟨tail, htail⟩ := ih (VerifyingChunkAccessor.read_chunk_into acc tp st d dt writer).st
      (VerifyingChunkAccessor.read_chunk_into acc tp st d dt writer).writer
    simp only [runVCA]
    rcases VCA_errors_cases acc tp st d dt writer with he | ⟨_, e, _, he⟩
    · exact ⟨tail, by rw [htail, he]⟩
    · exact ⟨[(d, e)] ++ tail, by rw [htail, he, List.append_assoc]⟩

/-- During a verification run, the digests of the error list stay pairwise
distinct, and every recorded digest is a member of the accessed set. -/
theorem runVCA_errors_invariant (acc : DefaultChunkAccessor ε) (tp : TypePolicy) :
    ∀ (reqs : List (List Nat × DataType)) (st : VCAState ε) (writer : List Nat),
    ((st.errors.map Prod.fst).Nodup) →
    (∀ p ∈ st.errors, p.1 ∈ st.accessed) →
    ((runVCA acc tp st writer reqs).1.errors.map Prod.fst).Nodup
    ∧ ∀ p ∈ (runVCA acc tp st writer reqs).1.errors,
        p.1 ∈ (runVCA acc tp st writer reqs).1.accessed := by
  intro reqs
  induction reqs with
  | nil => intro st writer hnd hsub; exact ⟨hnd, by simpa [runVCA] using hsub⟩
  | cons r reqs ih =>
    intro st writer hnd hsub
    obtain ⟨d, dt⟩ := r
    have hacc := VCA_accessed_insert acc tp st d dt writer
    simp only [runVCA]
    apply ih
    · rcases VCA_errors_cases acc tp st d dt writer with he | ⟨hm, e, _, he⟩
      · rw [he]; exact hnd
      · rw [he]
        simp only [List.map_append, List.map_cons, List.map_nil]
        rw [List.nodup_append]
        refine ⟨hnd, List.nodup_singleton d, ?_⟩
        intro x hx hxd
        rcases List.mem_map.mp hx with ⟨p, hp, hpx⟩
        rcases List.mem_singleton.mp hxd with rfl
        exact hm (hpx ▸ hsub p hp)
    · rcases VCA_errors_cases acc tp st d dt writer with he | ⟨hm, e, _, he⟩
      · rw [he, hacc]
        intro p hp
        exact Finset.mem_insert_of_mem (hsub p hp)
      · rw [he, hacc]
        intro p hp
        rcases List.mem_append.mp hp with hp | hp
        · exact Finset.mem_insert_of_mem (hsub p hp)
        · rcases List.mem_singleton.mp hp with rfl
          exact Finset.mem_insert_self d _

/-- C3: a `VerifyingChunkAccessor::read_chunk_into` call returns success for
every digest and every outcome of the inner read; a failing inner read of a
fresh digest is recorded by appending the pair to the internal error list
instead of being propagated, and along any run the error list only ever
grows, so a verification traversal is never aborted by a corrupt chunk. -/
theorem claim3_never_propagates (acc : DefaultChunkAccessor ε) (tp : TypePolicy)
    (st : VCAState ε) (digest : List Nat) (data_type : DataType) (writer : List Nat) :
    (VerifyingChunkAccessor.read_chunk_into acc tp st digest data_type writer).res = .ok ()
    ∧ (∀ e, digest ∉ st.accessed →
        (acc.read_chunk_into tp digest data_type writer).1 = .error e →
        (VerifyingChunkAccessor.read_chunk_into acc tp st digest data_type writer).st.errors
          = st.errors ++ [(digest, e)])
    ∧ (∀ (reqs : List (List Nat × DataType)) (st2 : VCAState ε) (w2 : List Nat),
        ∃ tail, (runVCA acc tp st2 w2 reqs).1.errors = st2.errors ++ tail) := by
  refine ⟨VCA_res_ok acc tp st digest data_type writer, ?_, ?_⟩
  · intro e hm hr
    unfold VerifyingChunkAccessor.read_chunk_into
    simp [hm, hr]
  · intro reqs st2 w2
    exact runVCA_errors_mono acc tp reqs st2 w2

/-- Witness for C3 at a concrete input: the always-failing backend on the
fresh digest `dR` makes the verifying call succeed while appending the pair
of `dR` and the fetch error to the error list. -/
theorem claim3_witness :
    ((dR : List Nat) ∉ st0.accessed)
    ∧ (DefaultChunkAccessor.read_chunk_into accErr tpNone dR DataType.Data []).1
        = .error (.inner ())
    ∧ (VerifyingChunkAccessor.read_chunk_into accErr tpNone st0 dR DataType.Data []).res
        = .ok ()
    ∧ (VerifyingChunkAccessor.read_chunk_into accErr tpNone st0 dR DataType.Data []).st.errors
        = st0.errors ++ [(dR, .inner ())] :=
  ⟨by simp [st0], rfl,
   (claim3_never_propagates accErr tpNone st0 dR DataType.Data []).1,
   (claim3_never_propagates accErr tpNone st0 dR DataType.Data []).2.1 (.inner ())
     (by simp [st0]) rfl⟩

/-- C5: a digest already in the accessed set returns immediate success from
`VerifyingChunkAccessor::read_chunk_into` without invoking the inner
accessor or changing any state; across a run each distinct digest reaches
the inner accessor at most once, and the `scanned` field of the final
`VerifyResults` of a run from the fresh state counts the distinct digests
passed in, not the calls. -/
theorem claim5_verify_dedup (acc : DefaultChunkAccessor ε) (tp : TypePolicy)
    (st : VCAState ε) (digest : List Nat) (data_type : DataType) (writer : List Nat)
    (hmem : digest ∈ st.accessed) :
    VerifyingChunkAccessor.read_chunk_into acc tp st digest data_type writer
        = ⟨.ok (), st, writer, []⟩
    ∧ (∀ (reqs : List (List Nat × DataType)) (st2 : VCAState ε) (w2 : List Nat),
        (runVCA acc tp st2 w2 reqs).2.2.Nodup)
    ∧ (∀ (reqs : List (List Nat × DataType)) (w2 : List Nat),
        (VerifyingChunkAccessor.get_results (runVCA acc tp ⟨∅, []⟩ w2 reqs).1).scanned
          = ((reqs.map Prod.fst).toFinset).card) := by
  refine ⟨?_, ?_, ?_⟩
  · unfold VerifyingChunkAccessor.read_chunk_into
    simp [hmem]
  · intro reqs st2 w2
    exact (runVCA_inner_fresh acc tp reqs st2 w2).1
  · intro reqs w2
    unfold VerifyingChunkAccessor.get_results
    rw [runVCA_accessed]
    simp

/-- Witness for C5 at a concrete input: with `dR` already in the accessed
set, the call is an immediate success with no state change, no write and no
inner invocation. -/
theorem claim5_witness :
    (dR ∈ ({dR} : Finset (List Nat)))
    ∧ VerifyingChunkAccessor.read_chunk_into accErr tpNone ⟨{dR}, []⟩ dR DataType.Data [3]
        = ⟨.ok (), ⟨{dR}, []⟩, [3], []⟩ :=
  ⟨by simp,
   (claim5_verify_dedup accErr tpNone ⟨{dR}, []⟩ dR DataType.Data [3] (by simp)).1⟩

/-- C10: the digest of a `VerifyingChunkAccessor::read_chunk_into` call is
inserted into the accessed set whatever the inner read does (the insertion
precedes the read attempt), so over a run from the fresh state every digest
recorded in the error list is also in the accessed set counted by `scanned`,
and the error list holds at most one entry per distinct digest. -/
theorem claim10_accessed_invariant (acc : DefaultChunkAccessor ε) (tp : TypePolicy)
    (st : VCAState ε) (digest : List Nat) (data_type : DataType) (writer : List Nat)
    (reqs : List (List Nat × DataType)) (w2 : List Nat) :
    (VerifyingChunkAccessor.read_chunk_into acc tp st digest data_type writer).st.accessed
        = insert digest st.accessed
    ∧ ((runVCA acc tp ⟨∅, []⟩ w2 reqs).1.errors.map Prod.fst).Nodup
    ∧ ∀ p ∈ (runVCA acc tp ⟨∅, []⟩ w2 reqs).1.errors,
        p.1 ∈ (runVCA acc tp ⟨∅, []⟩ w2 reqs).1.accessed := by
  have h := runVCA_errors_invariant acc tp reqs ⟨∅, []⟩ w2 (by simp) (by simp)
  exact ⟨VCA_accessed_insert acc tp st digest data_type writer, h.1, h.2⟩

/-- C7: a request at `index_level` 0 is dispatched to leaf handling only:
with the caller's sink it performs exactly one accessor invocation, a
`read_chunk_into` fetch of its digest; with no sink, exactly one `touch`;
and the index path (`on_index`, which would create an `IndexTranslator`) is
never entered. -/
theorem claim7_depth_zero_leaf (env : Env ε) (hasBase : Bool) (data_type : DataType)
    (digest : List Nat) (bufs : List Buf) :
    ((readRec env hasBase data_type digest 0 (some []) bufs).events
        = [Ev.readingRecursively digest 0, Ev.traversingData digest, Ev.fetch digest data_type])
    ∧ ((readRec env hasBase data_type digest 0 none bufs).events
        = [Ev.readingRecursively digest 0, Ev.traversingData digest, Ev.touch digest])
    ∧ ((readRec env hasBase data_type digest 0 (some []) bufs).events.countP accessorEv = 1)
    ∧ ((readRec env hasBase data_type digest 0 none bufs).events.countP accessorEv = 1)
    ∧ ((readRec env hasBase data_type digest 0 (some []) bufs).events.countP indexEv = 0)
    ∧ ((readRec env hasBase data_type digest 0 none bufs).events.countP indexEv = 0) := by
  have hs : (readRec env hasBase data_type digest 0 (some []) bufs).events
      = [Ev.readingRecursively digest 0, Ev.traversingData digest, Ev.fetch digest data_type] := by
    cases hf : env.fetch digest data_type with
    | error e => simp [readRec, onData, hf]
    | ok data => simp [readRec, onData, writeChain, hf]
  have hn : (readRec env hasBase data_type digest 0 none bufs).events
      = [Ev.readingRecursively digest 0, Ev.traversingData digest, Ev.touch digest] := by
    cases ht : env.touch digest with
    | error e => simp [readRec, onData, ht]
    | ok u => simp [readRec, onData, ht]
  refine ⟨hs, hn, ?_, ?_, ?_, ?_⟩ <;>
    simp [hs, hn, accessorEv, indexEv, List.countP_cons, List.countP_nil]

/-- Unfolding `read_recursively` at `index_level` 0: the request is logged
and dispatched to `on_data`. -/
theorem readRec_zero (env : Env ε) (b : Bool) (dt : DataType) (digest : List Nat)
    (w : Option (List DataType)) (bufs : List Buf) :
    readRec env b dt digest 0 w bufs
      = ⟨(onData env b dt digest w bufs).res, (onData env b dt digest w bufs).bufs,
         (onData env b dt digest w bufs).out,
         Ev.readingRecursively digest 0 :: (onData env b dt digest w bufs).events⟩ := by
  simp only [readRec]
  simp

/-- Unfolding `read_recursively` at a positive `index_level`: the request is
logged and dispatched to `on_index`. -/
theorem readRec_succ (env : Env ε) (b : Bool) (dt : DataType) (digest : List Nat)
    (L : Nat) (hne : L ≠ 0) (w : Option (List DataType)) (bufs : List Buf) :
    readRec env b dt digest L w bufs
      = ⟨(onIndex env b dt digest L hne w bufs).res, (onIndex env b dt digest L hne w bufs).bufs,
         (onIndex env b dt digest L hne w bufs).out,
         Ev.readingRecursively digest L :: (onIndex env b dt digest L hne w bufs).events⟩ := by
  simp only [readRec]
  rw [dif_neg hne]

/-- Unfolding `on_index`: the nested `read_recursively` carries the same
digest, `index_level - 1`, data type `Index`, and a fresh translator over
the request's writer; on return the translator's buffer is dropped. -/
theorem onIndex_eq (env : Env ε) (b : Bool) (dt : DataType) (digest : List Nat)
    (L : Nat) (hne : L ≠ 0) (w : Option (List DataType)) (bufs : List Buf) :
    onIndex env b dt digest L hne w bufs
      = ⟨(readRec env b DataType.Index digest (L - 1)
            (some (dt :: w.getD [])) (emptyBuf :: bufs)).res,
         ((readRec env b DataType.Index digest (L - 1)
            (some (dt :: w.getD [])) (emptyBuf :: bufs)).bufs).tail,
         (readRec env b DataType.Index digest (L - 1)
            (some (dt :: w.getD [])) (emptyBuf :: bufs)).out,
         Ev.traversingIndex digest :: (readRec env b DataType.Index digest (L - 1)
            (some (dt :: w.getD [])) (emptyBuf :: bufs)).events⟩ := by
  simp only [onIndex]

/-- Pushing one more copy onto a replicated block absorbs a cons on its
right-hand side. -/
theorem replicate_append_cons {α : Type} (m : Nat) (a : α) (l : List α) :
    List.replicate m a ++ (a :: l) = List.replicate (m + 1) a ++ l := by
  rw [List.replicate_succ']
  simp

/-- Unwinding an index request through `j` levels: the nested
`read_recursively` calls strictly decrease the level one step at a time,
stacking one fresh translator per level, until the level-0 request on the
same digest is reached; the trace gains exactly the `j`-step unwinding
prefix and the `j` translators are dropped on the way back. -/
theorem readRec_descent (env : Env ε) (b : Bool) (digest : List Nat) :
    ∀ (j : Nat) (c : List DataType) (B : List Buf),
    readRec env b DataType.Index digest j (some c) B
      = ⟨(readRec env b DataType.Index digest 0
            (some (List.replicate j DataType.Index ++ c)) (List.replicate j emptyBuf ++ B)).res,
         ((readRec env b DataType.Index digest 0
            (some (List.replicate j DataType.Index ++ c)) (List.replicate j emptyBuf ++ B)).bufs).drop j,
         (readRec env b DataType.Index digest 0
            (some (List.replicate j DataType.Index ++ c)) (List.replicate j emptyBuf ++ B)).out,
         unwindTrace digest j
           ++ (readRec env b DataType.Index digest 0
                (some (List.replicate j DataType.Index ++ c)) (List.replicate j emptyBuf ++ B)).events⟩ := by
  intro j
  induction j with
  | zero =>
    intro c B
    simp only [List.replicate, List.nil_append, List.drop_zero, unwindTrace]
  | succ m ih =>
    intro c B
    have hstep : readRec env b DataType.Index digest (m + 1) (some c) B
        = ⟨(readRec env b DataType.Index digest m (some (DataType.Index :: c)) (emptyBuf :: B)).res,
           ((readRec env b DataType.Index digest m (some (DataType.Index :: c)) (emptyBuf :: B)).bufs).tail,
           (readRec env b DataType.Index digest m (some (DataType.Index :: c)) (emptyBuf :: B)).out,
           Ev.readingRecursively digest (m + 1) :: Ev.traversingIndex digest ::
             (readRec env b DataType.Index digest m (some (DataType.Index :: c)) (emptyBuf :: B)).events⟩ := by
      rw [readRec_succ env b DataType.Index digest (m + 1) (Nat.succ_ne_zero m) (some c) B,
        onIndex_eq env b DataType.Index digest (m + 1) (Nat.succ_ne_zero m) (some c) B]
      simp only [Nat.add_sub_cancel, Option.getD_some]
    rw [hstep, ih (DataType.Index :: c) (emptyBuf :: B),
      replicate_append_cons m DataType.Index c, replicate_append_cons m emptyBuf B]
    simp only [List.tail_drop, unwindTrace, List.cons_append]

/-- C6: `read_recursively` dispatches to `on_data` exactly at `index_level`
0 and to `on_index` otherwise; the nested call issued by `on_index` carries
`index_level` decreased by exactly one; and the direct recursion bottoms out
after `index_level` steps — the trace is the `index_level`-step unwinding
prefix followed by the level-0 leaf handling of the same digest. -/
theorem claim6_unwinding (env : Env ε) (hasBase : Bool) (data_type : DataType)
    (digest : List Nat) (w : Option (List DataType)) (bufs : List Buf)
    (L : Nat) (hL : L ≠ 0) :
    (readRec env hasBase data_type digest 0 w bufs
      = ⟨(onData env hasBase data_type digest w bufs).res,
         (onData env hasBase data_type digest w bufs).bufs,
         (onData env hasBase data_type digest w bufs).out,
         Ev.readingRecursively digest 0 :: (onData env hasBase data_type digest w bufs).events⟩)
    ∧ (readRec env hasBase data_type digest L w bufs
      = ⟨(onIndex env hasBase data_type digest L hL w bufs).res,
         (onIndex env hasBase data_type digest L hL w bufs).bufs,
         (onIndex env hasBase data_type digest L hL w bufs).out,
         Ev.readingRecursively digest L ::
           (onIndex env hasBase data_type digest L hL w bufs).events⟩)
    ∧ (onIndex env hasBase data_type digest L hL w bufs
      = ⟨(readRec env hasBase DataType.Index digest (L - 1)
            (some (data_type :: w.getD [])) (emptyBuf :: bufs)).res,
         ((readRec env hasBase DataType.Index digest (L - 1)
            (some (data_type :: w.getD [])) (emptyBuf :: bufs)).bufs).tail,
         (readRec env hasBase DataType.Index digest (L - 1)
            (some (data_type :: w.getD [])) (emptyBuf :: bufs)).out,
         Ev.traversingIndex digest :: (readRec env hasBase DataType.Index digest (L - 1)
            (some (data_type :: w.getD [])) (emptyBuf :: bufs)).events⟩)
    ∧ (∃ rest, (readRec env hasBase data_type digest L w bufs).events
        = unwindTrace digest L ++ Ev.readingRecursively digest 0 :: rest) := by
  refine ⟨readRec_zero env hasBase data_type digest w bufs,
    readRec_succ env hasBase data_type digest L hL w bufs,
    onIndex_eq env hasBase data_type digest L hL w bufs, ?_⟩
  obtain ⟨m, rfl⟩ := Nat.exists_eq_succ_of_ne_zero hL
  refine ⟨(onData env hasBase DataType.Index digest
      (some (List.replicate m DataType.Index ++ (data_type :: w.getD [])))
      (List.replicate m emptyBuf ++ (emptyBuf :: bufs))).events, ?_⟩
  rw [readRec_succ env hasBase data_type digest (m + 1) hL w bufs,
    onIndex_eq env hasBase data_type digest (m + 1) hL w bufs]
  simp only [Nat.add_sub_cancel]
  rw [readRec_descent env hasBase digest m (data_type :: w.getD []) (emptyBuf :: bufs)]
  rw [readRec_zero]
  simp [unwindTrace]

/-- Witness for C6 at a concrete input: the dispatch equations and the
one-step unwinding trace at level 1 for the example environment. -/
theorem claim6_witness :
    ((1 : Nat) ≠ 0)
    ∧ (∃ rest, (readRec env2 true DataType.Data dR 1 (some []) []).events
        = unwindTrace dR 1 ++ Ev.readingRecursively dR 0 :: rest) :=
  ⟨by decide,
   (claim6_unwinding env2 true DataType.Data dR (some []) [] 1 (by decide)).2.2.2⟩

/-- Unfolding the translator write loop when the buffer plus the input falls
short of `DIGEST_SIZE`: the input is buffered, nothing else happens. -/
theorem transLoop_stop (env : Env ε) (b : Bool) (dt : DataType) (buf : Buf)
    (rest : List DataType) (bufs : List Buf) (bytes : List Nat)
    (h : buf.val.length + bytes.length < DIGEST_SIZE) :
    transLoop env b dt buf rest bufs bytes
      = ⟨.ok (), ⟨buf.val ++ bytes, by simpa using h⟩, bufs, [], []⟩ := by
  rw [transLoop, dif_pos h]

/-- Unfolding the translator write loop when a digest is completed: the
buffer is filled to exactly `DIGEST_SIZE` from the input, the completed
digest is reacted to, the buffer is cleared, and on success the loop
continues on the remaining input. -/
theorem transLoop_go (env : Env ε) (b : Bool) (dt : DataType) (buf : Buf)
    (rest : List DataType) (bufs : List Buf) (bytes : List Nat)
    (h : ¬ (buf.val.length + bytes.length < DIGEST_SIZE)) :
    transLoop env b dt buf rest bufs bytes
      = (let step := translatorStep env b dt rest bufs
            (buf.val ++ bytes.take (DIGEST_SIZE - buf.val.length))
         match step.res with
         | .error e => ⟨.error e, emptyBuf, step.bufs, step.out, step.events⟩
         | .ok _ =>
           let r := transLoop env b dt emptyBuf rest step.bufs
              (bytes.drop (DIGEST_SIZE - buf.val.length))
           ⟨r.res, r.buf, r.bufs, step.out ++ r.out, step.events ++ r.events⟩) := by
  rw [transLoop, dif_neg h]
  rfl

/-- Writing `a ++ c` to a translator in one call equals writing `a` and then
`c`: the loop's digest extraction and reactions do not depend on how the
byte stream is cut. -/
theorem transLoop_append (env : Env ε) (b : Bool) (dt : DataType) (rest : List DataType) :
    ∀ (n : Nat) (a : List Nat), a.length = n → ∀ (c : List Nat) (buf : Buf) (bufs : List Buf),
    transLoop env b dt buf rest bufs (a ++ c)
      = (transLoop env b dt buf rest bufs a).andThen
          (fun buf2 bufs2 => transLoop env b dt buf2 rest bufs2 c) := by
  intro n
  induction n using Nat.strong_induction_on with
  | _ n IH =>
    intro a ha c buf bufs
    subst ha
    by_cases h1 : buf.val.length + a.length < DIGEST_SIZE
    · rw [transLoop_stop env b dt buf rest bufs a h1]
      have hbufa : (buf.val ++ a).length < DIGEST_SIZE := by
        simp only [List.length_append]; omega
      by_cases h2 : buf.val.length + (a ++ c).length < DIGEST_SIZE
      · have h3 : (⟨buf.val ++ a, hbufa⟩ : Buf).val.length + c.length < DIGEST_SIZE := by
          simp only [List.length_append] at h2 ⊢; omega
        rw [transLoop_stop env b dt buf rest bufs (a ++ c) h2]
        unfold TRes.andThen
        dsimp only
        rw [transLoop_stop env b dt ⟨buf.val ++ a, hbufa⟩ rest bufs c h3]
        simp [List.append_assoc]
      · have h3 : ¬ ((⟨buf.val ++ a, hbufa⟩ : Buf).val.length + c.length < DIGEST_SIZE) := by
          simp only [List.length_append] at h2 ⊢; omega
        rw [transLoop_go env b dt buf rest bufs (a ++ c) h2]
        unfold TRes.andThen
        dsimp only
        rw [transLoop_go env b dt ⟨buf.val ++ a, hbufa⟩ rest bufs c h3]
        have htake : (a ++ c).take (DIGEST_SIZE - buf.val.length)
            = a ++ c.take (DIGEST_SIZE - (buf.val ++ a).length) := by
          rw [List.take_append_eq_append_take, List.take_of_length_le (by omega)]
          simp only [List.length_append]
          congr 2
          omega
        have hdrop : (a ++ c).drop (DIGEST_SIZE - buf.val.length)
            = c.drop (DIGEST_SIZE - (buf.val ++ a).length) := by
          rw [List.drop_append_eq_append_drop, List.drop_eq_nil_of_le (by omega)]
          simp only [List.nil_append, List.length_append]
          congr 1
          omega
        rw [htake, hdrop, ← List.append_assoc]
        rfl
    · have h2 : ¬ (buf.val.length + (a ++ c).length < DIGEST_SIZE) := by
        simp only [List.length_append]; omega
      rw [transLoop_go env b dt buf rest bufs (a ++ c) h2,
          transLoop_go env b dt buf rest bufs a h1]
      have hb := buf.2
      have htake : (a ++ c).take (DIGEST_SIZE - buf.val.length)
          = a.take (DIGEST_SIZE - buf.val.length) := by
        rw [List.take_append_eq_append_take]
        have hz : DIGEST_SIZE - buf.val.length - a.length = 0 := by omega
        rw [hz]
        simp
      have hdrop : (a ++ c).drop (DIGEST_SIZE - buf.val.length)
          = a.drop (DIGEST_SIZE - buf.val.length) ++ c := by
        rw [List.drop_append_eq_append_drop]
        have hz : DIGEST_SIZE - buf.val.length - a.length = 0 := by omega
        rw [hz]
        simp
      rw [htake, hdrop]
      dsimp only
      cases hs : (translatorStep env b dt rest bufs
          (buf.val ++ a.take (DIGEST_SIZE - buf.val.length))).res with
      | error e =>
        unfold TRes.andThen
        simp
      | ok u =>
        have hlt : (a.drop (DIGEST_SIZE - buf.val.length)).length < a.length := by
          simp only [List.length_drop]
          omega
        rw [IH _ hlt (a.drop (DIGEST_SIZE - buf.val.length)) rfl c emptyBuf
          (translatorStep env b dt rest bufs
            (buf.val ++ a.take (DIGEST_SIZE - buf.val.length))).bufs]
        unfold TRes.andThen
        dsimp only
        cases hr : (transLoop env b dt emptyBuf rest
            (translatorStep env b dt rest bufs
              (buf.val ++ a.take (DIGEST_SIZE - buf.val.length))).bufs
            (a.drop (DIGEST_SIZE - buf.val.length))).res with
        | error e2 => simp [hr]
        | ok u2 => simp [hr, List.append_assoc]

/-- The empty translator buffer holds no bytes. -/
theorem emptyBuf_val : (emptyBuf : Buf).val = [] := rfl

/-- A sequence of `write` calls on one translator equals a single `write` of
the concatenation of the pieces. -/
theorem writeList_eq_transLoop (env : Env ε) (b : Bool) (dt : DataType) (rest : List DataType) :
    ∀ (pieces : List (List Nat)) (buf : Buf) (bufs : List Buf),
    writeList env b dt buf rest bufs pieces
      = transLoop env b dt buf rest bufs pieces.flatten := by
  intro pieces
  induction pieces with
  | nil =>
    intro buf bufs
    rw [List.flatten_nil,
      transLoop_stop env b dt buf rest bufs [] (by have := buf.2; simpa using this)]
    simp [writeList]
  | cons p ps ih =>
    intro buf bufs
    rw [List.flatten_cons,
      transLoop_append env b dt rest p.length p rfl ps.flatten buf bufs]
    simp only [writeList]
    congr 1
    funext buf2 bufs2
    exact ih buf2 bufs2

/-- Unfolding the pure demultiplexer in the buffering case. -/
theorem splitDigests_stop (buf : Buf) (bytes : List Nat)
    (h : buf.val.length + bytes.length < DIGEST_SIZE) :
    splitDigests buf bytes = ([], ⟨buf.val ++ bytes, by simpa using h⟩) := by
  rw [splitDigests, dif_pos h]

/-- Unfolding the pure demultiplexer in the digest-completing case. -/
theorem splitDigests_go (buf : Buf) (bytes : List Nat)
    (h : ¬ (buf.val.length + bytes.length < DIGEST_SIZE)) :
    splitDigests buf bytes
      = ((buf.val ++ bytes.take (DIGEST_SIZE - buf.val.length))
            :: (splitDigests emptyBuf (bytes.drop (DIGEST_SIZE - buf.val.length))).1,
         (splitDigests emptyBuf (bytes.drop (DIGEST_SIZE - buf.val.length))).2) := by
  rw [splitDigests, dif_neg h]

/-- The digest groups of the empty byte string. -/
theorem chunksOf_nil : chunksOf [] = [] := by
  rw [chunksOf]
  simp

/-- The digest groups of a non-empty byte string: the first `DIGEST_SIZE`
bytes, then the groups of the remainder. -/
theorem chunksOf_cons (bytes : List Nat) (h : bytes ≠ []) :
    chunksOf bytes = bytes.take DIGEST_SIZE :: chunksOf (bytes.drop DIGEST_SIZE) := by
  rw [chunksOf, if_neg (by simpa using h)]

/-- On input whose length is a multiple of `DIGEST_SIZE`, the demultiplexer
started from an empty buffer decodes exactly the consecutive
`DIGEST_SIZE`-byte groups of the input, in order, and ends with an empty
buffer. -/
theorem splitDigests_multiple :
    ∀ (n : Nat) (bytes : List Nat), bytes.length = n → DIGEST_SIZE ∣ n →
    splitDigests emptyBuf bytes = (chunksOf bytes, emptyBuf) := by
  intro n
  induction n using Nat.strong_induction_on with
  | _ n IH =>
    intro bytes hlen hdvd
    cases bytes with
    | nil =>
      rw [splitDigests_stop emptyBuf [] (by rw [emptyBuf_val]; decide), chunksOf_nil]
      rfl
    | cons x xs =>
      have hlen2 : xs.length + 1 = n := by simpa using hlen
      have hpos : 0 < n := by omega
      have hge : DIGEST_SIZE ≤ n := by
        rcases hdvd with ⟨k, hk⟩
        cases k with
        | zero => rw [Nat.mul_zero] at hk; omega
        | succ m => rw [hk, Nat.mul_succ]; omega
      have hno : ¬ ((emptyBuf : Buf).val.length + (x :: xs).length < DIGEST_SIZE) := by
        rw [emptyBuf_val]
        simp only [List.length_nil, List.length_cons, Nat.zero_add]
        omega
      rw [splitDigests_go emptyBuf (x :: xs) hno, chunksOf_cons (x :: xs) (by simp)]
      have hrl : ((x :: xs).drop (DIGEST_SIZE - (emptyBuf : Buf).val.length)).length
          = n - DIGEST_SIZE := by
        rw [emptyBuf_val]
        simp only [List.length_nil, Nat.sub_zero, List.length_drop, List.length_cons]
        omega
      have hds : 0 < DIGEST_SIZE := by decide
      have hlt : n - DIGEST_SIZE < n := by omega
      have hdvd2 : DIGEST_SIZE ∣ (n - DIGEST_SIZE) := by
        rcases hdvd with ⟨k, hk⟩
        cases k with
        | zero => rw [Nat.mul_zero] at hk; omega
        | succ m => exact ⟨m, by rw [hk, Nat.mul_succ, Nat.add_sub_cancel]⟩
      rw [IH (n - DIGEST_SIZE) hlt _ hrl hdvd2]
      rw [emptyBuf_val]
      simp

/-- The translator write loop is the demultiplexer followed by the per-digest
reactions: it resolves exactly the digests `splitDigests` decodes, in order,
keeps the leftover buffer on success and the cleared buffer on failure. -/
theorem transLoop_resolve (env : Env ε) (b : Bool) (dt : DataType) (rest : List DataType) :
    ∀ (n : Nat) (bytes : List Nat), bytes.length = n → ∀ (buf : Buf) (bufs : List Buf),
    transLoop env b dt buf rest bufs bytes
      = ⟨(resolveDigests env b dt rest bufs (splitDigests buf bytes).1).res,
         (match (resolveDigests env b dt rest bufs (splitDigests buf bytes).1).res with
          | .ok _ => (splitDigests buf bytes).2
          | .error _ => emptyBuf),
         (resolveDigests env b dt rest bufs (splitDigests buf bytes).1).bufs,
         (resolveDigests env b dt rest bufs (splitDigests buf bytes).1).out,
         (resolveDigests env b dt rest bufs (splitDigests buf bytes).1).events⟩ := by
  intro n
  induction n using Nat.strong_induction_on with
  | _ n IH =>
    intro bytes hlen buf bufs
    subst hlen
    by_cases h : buf.val.length + bytes.length < DIGEST_SIZE
    · rw [transLoop_stop env b dt buf rest bufs bytes h, splitDigests_stop buf bytes h]
      simp [resolveDigests]
    · rw [transLoop_go env b dt buf rest bufs bytes h, splitDigests_go buf bytes h]
      dsimp only
      simp only [resolveDigests]
      cases hs : (translatorStep env b dt rest bufs
          (buf.val ++ bytes.take (DIGEST_SIZE - buf.val.length))).res with
      | error e => rfl
      | ok u =>
        have hb := buf.2
        have hlt : (bytes.drop (DIGEST_SIZE - buf.val.length)).length < bytes.length := by
          simp only [List.length_drop]
          have hds : 0 < DIGEST_SIZE := by decide
          omega
        rw [IH _ hlt (bytes.drop (DIGEST_SIZE - buf.val.length)) rfl emptyBuf
          (translatorStep env b dt rest bufs
            (buf.val ++ bytes.take (DIGEST_SIZE - buf.val.length))).bufs]

/-- C2: feeding a byte sequence whose length is a multiple of `DIGEST_SIZE`
to `IndexTranslator::write` in any partition into non-empty pieces produces
the same result — same digest reactions, same final output, buffer and
events — as writing the whole sequence at once; the decoded digests are
exactly the consecutive `DIGEST_SIZE`-byte groups of the input in order,
each resolved (or touched) as it completes. -/
theorem claim2_translator_alignment (env : Env ε) (b : Bool) (dt : DataType)
    (rest : List DataType) (bufs : List Buf) (input : List Nat) (pieces : List (List Nat))
    (hjoin : pieces.flatten = input)
    (_hne : ∀ p ∈ pieces, p ≠ [])
    (hlen : DIGEST_SIZE ∣ input.length) :
    writeList env b dt emptyBuf rest bufs pieces
        = transLoop env b dt emptyBuf rest bufs input
    ∧ (splitDigests emptyBuf input).1 = chunksOf input
    ∧ (splitDigests emptyBuf input).2 = emptyBuf
    ∧ transLoop env b dt emptyBuf rest bufs input
        = ⟨(resolveDigests env b dt rest bufs (chunksOf input)).res,
           emptyBuf,
           (resolveDigests env b dt rest bufs (chunksOf input)).bufs,
           (resolveDigests env b dt rest bufs (chunksOf input)).out,
           (resolveDigests env b dt rest bufs (chunksOf input)).events⟩ := by
  have hone : splitDigests emptyBuf input = (chunksOf input, emptyBuf) :=
    splitDigests_multiple input.length input rfl hlen
  refine ⟨?_, ?_, ?_, ?_⟩
  · rw [writeList_eq_transLoop env b dt rest pieces emptyBuf bufs, hjoin]
  · rw [hone]
  · rw [hone]
  · rw [transLoop_resolve env b dt rest input.length input rfl emptyBuf bufs, hone]
    cases hres : (resolveDigests env b dt rest bufs (chunksOf input)).res <;> simp [hres]

/-- Witness for C2 at a concrete input: 64 bytes cut after the tenth byte
fed as two writes equals the single 64-byte write. -/
theorem claim2_witness :
    ((([dE.take 10, dE.drop 10 ++ dF] : List (List Nat)).flatten = dE ++ dF)
    ∧ (∀ p ∈ ([dE.take 10, dE.drop 10 ++ dF] : List (List Nat)), p ≠ [])
    ∧ DIGEST_SIZE ∣ (dE ++ dF).length)
    ∧ writeList env2 false DataType.Data emptyBuf [] [] [dE.take 10, dE.drop 10 ++ dF]
        = transLoop env2 false DataType.Data emptyBuf [] [] (dE ++ dF) :=
  ⟨⟨by decide, by decide, by decide⟩,
   (claim2_translator_alignment env2 false DataType.Data [] [] (dE ++ dF)
      [dE.take 10, dE.drop 10 ++ dF] (by decide) (by decide) (by decide)).1⟩

/-- The digest stream of the empty forest is empty. -/
theorem digestStream_nil : digestStream [] = [] := by simp [digestStream]

/-- The digest stream of a forest starts with the first tree's digest. -/
theorem digestStream_cons (t : LTree) (ts : List LTree) :
    digestStream (t :: ts) = LTree.digestOf t ++ digestStream ts := by
  simp [digestStream]

/-- The translator chain of an unwinding is its innermost translator over
the rest. -/
theorem chainFor_destruct (dt : DataType) (l : Nat) :
    chainFor dt l = headDT dt l :: restDT dt l := by
  cases l <;> rfl

/-- The translator chain of an unwinding through `l + 1` levels consists of
`l` `Index` translators over the one carrying the original data type. -/
theorem chainFor_replicate (dt : DataType) :
    ∀ l : Nat, chainFor dt l = List.replicate l DataType.Index ++ [dt] := by
  intro l
  induction l with
  | zero => rfl
  | succ m ih => simp [chainFor, List.replicate_succ, ih]

/-- One more empty buffer on the stack. -/
theorem emptyBufs_succ (n : Nat) : emptyBufs (n + 1) = emptyBuf :: emptyBufs n := by
  simp [emptyBufs, List.replicate_succ]

/-- The digest of a well-formed tree is exactly `DIGEST_SIZE` bytes. -/
theorem wfF_digest_length (l : Nat) (t : LTree) (h : wfF l t) :
    (LTree.digestOf t).length = DIGEST_SIZE := by
  cases l with
  | zero => cases t with
    | leaf d c => simpa [wfF, LTree.digestOf] using h
    | node d cs => simp [wfF] at h
  | succ m => cases t with
    | leaf d c => simp [wfF] at h
    | node d cs => simp only [wfF] at h; simpa [LTree.digestOf] using h.1

/-- A full digest at the head of a byte stream is taken whole and dropped
whole by the demultiplexer arithmetic. -/
theorem take_drop_digest (d s : List Nat) (hd : d.length = DIGEST_SIZE) :
    (d ++ s).take DIGEST_SIZE = d ∧ (d ++ s).drop DIGEST_SIZE = s := by
  constructor
  · rw [List.take_append_eq_append_take, List.take_of_length_le (by omega), hd,
      Nat.sub_self, List.take_zero, List.append_nil]
  · rw [List.drop_append_eq_append_drop, List.drop_eq_nil_of_le (by omega), hd,
      Nat.sub_self, List.drop_zero, List.nil_append]

/-- When the traversal has a base sink, every translator's writer is
present, so the reaction to a completed digest is the level-0 recursive
read. -/
theorem translatorStep_true (env : Env ε) (dt : DataType) (rest : List DataType)
    (bufs : List Buf) (digest : List Nat) :
    translatorStep env true dt rest bufs digest
      = readRec env true dt digest 0 (some rest) bufs := by
  simp [translatorStep]

/-- If each well-formed consistent tree of a level resolves at level 0 into
its flattened content, then writing a forest's digest stream to the
translator of that level resolves the whole forest, in order. -/
theorem forest_of_step (env : Env ε) (dt : DataType) (l : Nat)
    (hstep : ∀ t : LTree, wfF l t → consistentF env dt t →
      readRec env true (headDT dt l) (LTree.digestOf t) 0 (some (restDT dt l)) (emptyBufs l)
        = ⟨.ok (), emptyBufs l, flatF t, traceF dt t⟩) :
    ∀ ts : List LTree, wfL l ts → consistentL env dt ts →
    transLoop env true (headDT dt l) emptyBuf (restDT dt l) (emptyBufs l) (digestStream ts)
      = ⟨.ok (), emptyBuf, emptyBufs l, flatL ts, traceL dt ts⟩ := by
  intro ts
  induction ts with
  | nil =>
    intro _ _
    rw [digestStream_nil,
      transLoop_stop env true (headDT dt l) emptyBuf (restDT dt l) (emptyBufs l) []
        (by rw [emptyBuf_val]; decide)]
    simp [flatL, traceL]
  | cons t ts2 ih =>
    intro hwf hcons
    simp only [wfL] at hwf
    simp only [consistentL] at hcons
    have hd32 := wfF_digest_length l t hwf.1
    rw [digestStream_cons]
    have hno : ¬ ((emptyBuf : Buf).val.length
        + (LTree.digestOf t ++ digestStream ts2).length < DIGEST_SIZE) := by
      rw [emptyBuf_val]
      simp only [List.length_nil, List.length_append, Nat.zero_add, hd32]
      omega
    rw [transLoop_go env true (headDT dt l) emptyBuf (restDT dt l) (emptyBufs l) _ hno]
    dsimp only
    rw [emptyBuf_val]
    simp only [List.length_nil, Nat.sub_zero, List.nil_append]
    rw [(take_drop_digest _ _ hd32).1, (take_drop_digest _ _ hd32).2]
    rw [translatorStep_true, hstep t hwf.1 hcons.1]
    dsimp only
    rw [ih hwf.2 hcons.2]
    simp [flatL, traceL]

/-- Resolving well-formed consistent trees: at every level, the level-0
recursive read of a tree's digest into the unwinding chain of that level
produces the tree's flattened content, and writing a forest's digest stream
to the innermost translator resolves the forest in order. -/
theorem resolve_forest (env : Env ε) (dt : DataType) :
    ∀ l : Nat,
    (∀ t : LTree, wfF l t → consistentF env dt t →
      readRec env true (headDT dt l) (LTree.digestOf t) 0 (some (restDT dt l)) (emptyBufs l)
        = ⟨.ok (), emptyBufs l, flatF t, traceF dt t⟩)
    ∧ (∀ ts : List LTree, wfL l ts → consistentL env dt ts →
      transLoop env true (headDT dt l) emptyBuf (restDT dt l) (emptyBufs l) (digestStream ts)
        = ⟨.ok (), emptyBuf, emptyBufs l, flatL ts, traceL dt ts⟩) := by
  intro l
  induction l with
  | zero =>
    have hstep : ∀ t : LTree, wfF 0 t → consistentF env dt t →
        readRec env true (headDT dt 0) (LTree.digestOf t) 0 (some (restDT dt 0)) (emptyBufs 0)
          = ⟨.ok (), emptyBufs 0, flatF t, traceF dt t⟩ := by
      intro t hwf hcons
      cases t with
      | node d cs => simp [wfF] at hwf
      | leaf d c =>
        simp only [consistentF] at hcons
        simp only [headDT, restDT, LTree.digestOf]
        rw [readRec_zero]
        simp only [onData]
        rw [hcons]
        simp only [writeChain]
        simp [flatF, traceF, LTree.digestOf]
    exact ⟨hstep, forest_of_step env dt 0 hstep⟩
  | succ m ihl =>
    have hstep : ∀ t : LTree, wfF (m + 1) t → consistentF env dt t →
        readRec env true (headDT dt (m + 1)) (LTree.digestOf t) 0
            (some (restDT dt (m + 1))) (emptyBufs (m + 1))
          = ⟨.ok (), emptyBufs (m + 1), flatF t, traceF dt t⟩ := by
      intro t hwf hcons
      cases t with
      | leaf d c => simp [wfF] at hwf
      | node d cs =>
        simp only [wfF] at hwf
        simp only [consistentF] at hcons
        simp only [headDT, restDT, LTree.digestOf]
        rw [readRec_zero]
        simp only [onData]
        rw [hcons.1]
        rw [chainFor_destruct, emptyBufs_succ]
        simp only [writeChain, List.headD_cons, List.tail_cons]
        rw [ihl.2 cs hwf.2 hcons.2]
        dsimp only
        rw [← emptyBufs_succ]
        simp [flatF, traceF, LTree.digestOf]
    exact ⟨hstep, forest_of_step env dt (m + 1) hstep⟩

/-- Writing the digest stream of a well-formed consistent forest through the
full translator chain of its level resolves every tree in order, leaves all
buffers empty, and emits the concatenated leaf contents. -/
theorem writeChain_forest (env : Env ε) (dt : DataType) (l : Nat) (ts : List LTree)
    (hwf : wfL l ts) (hcons : consistentL env dt ts) :
    writeChain env true (chainFor dt l) (emptyBufs (l + 1)) (digestStream ts)
      = ⟨.ok (), emptyBufs (l + 1), flatL ts, traceL dt ts⟩ := by
  rw [chainFor_destruct, emptyBufs_succ]
  simp only [writeChain, List.headD_cons, List.tail_cons]
  rw [(resolve_forest env dt l).2 ts hwf hcons]

/-- Round trip of the recursive resolver: reading a well-formed consistent
tree's root digest at its index level through the caller's sink emits
exactly the concatenation of the tree's leaf contents, succeeds, drains
every translator, and logs the unwinding prefix followed by the per-digest
resolution trace. -/
theorem readRec_roundTrip (env : Env ε) (dt : DataType) (L : Nat) (t : LTree)
    (hwf : wfF L t) (hcons : consistentF env dt t) :
    readRec env true dt (LTree.digestOf t) L (some []) []
      = ⟨.ok (), [], flatF t, unwindTrace (LTree.digestOf t) L ++ traceF dt t⟩ := by
  cases L with
  | zero =>
    cases t with
    | node d cs => simp [wfF] at hwf
    | leaf d c =>
      simp only [consistentF] at hcons
      simp only [LTree.digestOf]
      rw [readRec_zero]
      simp only [onData]
      rw [hcons]
      simp only [writeChain]
      simp [flatF, traceF, unwindTrace, LTree.digestOf]
  | succ m =>
    cases t with
    | leaf d c => simp [wfF] at hwf
    | node d cs =>
      simp only [wfF] at hwf
      simp only [consistentF] at hcons
      simp only [LTree.digestOf]
      rw [readRec_succ env true dt d (m + 1) (Nat.succ_ne_zero m) (some []) [],
        onIndex_eq env true dt d (m + 1) (Nat.succ_ne_zero m) (some []) []]
      simp only [Nat.add_sub_cancel, Option.getD_some]
      rw [readRec_descent env true d m [dt] [emptyBuf]]
      rw [show List.replicate m DataType.Index ++ [dt] = chainFor dt m from
        (chainFor_replicate dt m).symm]
      rw [show List.replicate m emptyBuf ++ [emptyBuf] = emptyBufs (m + 1) from by
        rw [emptyBufs]; exact (List.replicate_succ' m emptyBuf).symm]
      rw [readRec_zero]
      simp only [onData]
      rw [hcons.1]
      dsimp only
      rw [writeChain_forest env dt m cs hwf.2 hcons.2]
      dsimp only
      simp only [emptyBufs, List.drop_replicate, List.tail_replicate]
      simp [unwindTrace, traceF, flatF, Nat.sub_self]

/-- The example tree is well formed at level 2. -/
theorem tree2_wf : wfF 2 tree2 := by
  simp [tree2, wfF, wfL, dR, dE, dF]

/-- The example environment is consistent with the example tree. -/
theorem tree2_consistent : consistentF env2 DataType.Data tree2 := by
  simp only [tree2, consistentF, consistentL]
  refine ⟨?_, ⟨?_, ?_, trivial⟩, trivial⟩ <;> rfl

/-- C1 (amended): for a root resolution at `index_level` L ≥ 2 over a
well-formed consistent tree, every decoded digest is fed back into
`read_recursively` at `index_level` 0 — handled by the leaf path, its chunk
content flowing into the next-outer `IndexTranslator` of the chain built by
`on_index` — and the full tree of depth L is thereby resolved: the output is
exactly the concatenation of the leaf contents, and the trace is the
unwinding prefix followed by the level-0 resolutions of every decoded
digest. -/
theorem claim1_resolution_via_translators (env : Env ε) (dt : DataType) (L : Nat)
    (t : LTree) (_hL : 2 ≤ L) (hwf : wfF L t) (hcons : consistentF env dt t) :
    readRec env true dt (LTree.digestOf t) L (some []) []
      = ⟨.ok (), [], flatF t, unwindTrace (LTree.digestOf t) L ++ traceF dt t⟩ :=
  readRec_roundTrip env dt L t hwf hcons

/-- Witness for the amended C1 at the concrete depth-2 tree. -/
theorem claim1_witness :
    ((2 : Nat) ≤ 2 ∧ wfF 2 tree2 ∧ consistentF env2 DataType.Data tree2)
    ∧ readRec env2 true DataType.Data (LTree.digestOf tree2) 2 (some []) []
        = ⟨.ok (), [], flatF tree2,
           unwindTrace (LTree.digestOf tree2) 2 ++ traceF DataType.Data tree2⟩ :=
  ⟨⟨by decide, tree2_wf, tree2_consistent⟩,
   claim1_resolution_via_translators env2 DataType.Data 2 tree2 (by decide)
     tree2_wf tree2_consistent⟩

/-- Counterexample to C1 as stated: in the depth-2 resolution of the example
tree, the intermediate index digest `dE` decoded by the innermost translator
is issued as a request with `index_level` 0 and handled by `on_data` — read
directly as a leaf chunk — and no request with `index_level` 1 is ever
issued for it, contradicting "resolved as the next level down of the tree,
not read directly as a leaf chunk". -/
theorem claim1_counterexample :
    Ev.readingRecursively dE 0
        ∈ (readRec env2 true DataType.Data dR 2 (some []) ([] : List Buf)).events
    ∧ Ev.traversingData dE
        ∈ (readRec env2 true DataType.Data dR 2 (some []) ([] : List Buf)).events
    ∧ Ev.readingRecursively dE 1
        ∉ (readRec env2 true DataType.Data dR 2 (some []) ([] : List Buf)).events := by
  have h := readRec_roundTrip env2 DataType.Data 2 tree2 tree2_wf tree2_consistent
  have hd : LTree.digestOf tree2 = dR := rfl
  rw [hd] at h
  rw [h]
  dsimp only
  simp only [unwindTrace, traceF, traceL, tree2]
  refine ⟨?_, ?_, ?_⟩ <;> decide
